import Mathlib

/-!
# Verification of the cashflowsim simulation core

This file gives a shallow embedding, in Lean 4, of the financial core of the
`cashflowsim` Go service (package `cashflow`): date recurrence arithmetic,
first-occurrence resolution, cashflow generation with same-day aggregation,
balance accumulation, and the simulation orchestrator.

Calendar dates are modelled as a count of days since 0001-01-01 in the
proleptic Gregorian calendar.  A Go `time.Time` produced by
`time.Date(y, m, d, 0, 0, 0, 0, time.UTC)` corresponds to the day number
`daysFromCivil y m d`, and the methods `Before`/`After`/`Equal` on such
midnight instants coincide with `<`/`>`/`=` on day numbers.  The functions
below mirror the date arithmetic that the Go `time` package performs:
`daysFromCivil` mirrors `time.Date` (month normalisation plus linear day
offset, which is where Go's roll-over behaviour for out-of-range days comes
from), and `yearAndYday`/`ydayToMD` mirror the decomposition in Go's
`time.absDate` (strip 400-year cycles, capped 100-year cycles, 4-year
cycles, capped years; then read the month off the `daysBefore` table with
the February-29 special case).  `AddDate` decomposes, offsets the
components, and re-encodes, exactly as Go's `Time.AddDate` does.

Monetary values (Go `float64`) are modelled as rationals: every value
computed by the core is a finite sum of input values, and the claims under
study concern which sums are formed, not floating-point rounding.
-/

/-- Go's `daysBefore` table: cumulative days before (1-based) month `m + 1`
in a non-leap year, i.e. `daysBefore m` is the day-of-year on which month
`m + 1` starts (0-based), clamped to `0` below and `365` above. -/
def daysBefore (m : Int) : Int :=
  if m ≤ 0 then 0
  else if m = 1 then 31
  else if m = 2 then 59
  else if m = 3 then 90
  else if m = 4 then 120
  else if m = 5 then 151
  else if m = 6 then 181
  else if m = 7 then 212
  else if m = 8 then 243
  else if m = 9 then 273
  else if m = 10 then 304
  else if m = 11 then 334
  else 365

/-- Go's `isLeap`: a proleptic Gregorian leap year. -/
def isLeap (y : Int) : Bool :=
  y % 4 == 0 && (y % 100 != 0 || y % 400 == 0)

/-- Days from 0001-01-01 to the first of January of year `y`
(Go's `daysSinceEpoch`, shifted to epoch year 1). -/
def daysBeforeYear (y : Int) : Int :=
  365 * (y - 1) + (y - 1) / 4 - (y - 1) / 100 + (y - 1) / 400

/-- Day number of the civil date `(y, m, d)`, mirroring Go's `time.Date`:
the month is normalised into `[1, 12]` (shifting the year, with floored
division, as Go's `norm` does), while the day only offsets the count
linearly — an out-of-range day rolls over into the following months. -/
def daysFromCivil (y m d : Int) : Int :=
  let y' := y + (m - 1) / 12
  let m' := (m - 1) % 12 + 1
  daysBeforeYear y' + daysBefore (m' - 1)
    + (if isLeap y' = true ∧ 3 ≤ m' then 1 else 0) + (d - 1)

/-- Year and 0-based day-of-year of a day number: the cycle-stripping
cascade of Go's `time.absDate` (400-year cycles, then 100-year cycles
capped at 3, 4-year cycles, and years capped at 3). -/
def yearAndYday (t : Int) : Int × Int :=
  let n1 := t / 146097
  let d2 := t - 146097 * n1
  let q2 := d2 / 36524
  let n2 := q2 - q2 / 4
  let d3 := d2 - 36524 * n2
  let n3 := d3 / 1461
  let d4 := d3 - 1461 * n3
  let q4 := d4 / 365
  let n4 := q4 - q4 / 4
  (400 * n1 + 100 * n2 + 4 * n3 + n4 + 1, d4 - 365 * n4)

/-- Month and day-of-month from a year and its 0-based day-of-year: the
month-extraction step of Go's `time.absDate`, including the February-29
special case for leap years. -/
def ydayToMD (year yday : Int) : Int × Int :=
  if isLeap year = true ∧ yday = 59 then (2, 29)
  else
    let day := if isLeap year = true ∧ 59 < yday then yday - 1 else yday
    let m0 := day / 31
    let m1 := if daysBefore (m0 + 1) ≤ day then m0 + 1 else m0
    (m1 + 1, day - daysBefore m1 + 1)

/-- Full decomposition of a day number into `(year, month, day)`. -/
def civilFromDays (t : Int) : Int × Int × Int :=
  let yy := yearAndYday t
  let md := ydayToMD yy.1 yy.2
  (yy.1, md.1, md.2)

/-- Go's `Time.AddDate`: decompose, offset each component, re-encode. -/
def AddDate (t years months days : Int) : Int :=
  daysFromCivil ((civilFromDays t).1 + years) ((civilFromDays t).2.1 + months)
    ((civilFromDays t).2.2 + days)

example : daysFromCivil 1 1 1 = 0 := by decide
example : daysFromCivil 1970 1 1 = 719162 := by decide
example : civilFromDays 719162 = (1970, 1, 1) := by decide
example : daysFromCivil 2025 2 31 = daysFromCivil 2025 3 3 := by decide
example : civilFromDays (daysFromCivil 2024 2 29) = (2024, 2, 29) := by decide

set_option maxHeartbeats 2000000

/-- The cycle-stripping cascade is exact: it yields the unique year whose
first day is at most `t`, together with a day-of-year in range (`0..364`,
or `0..365` in a leap year). -/
theorem yearAndYday_spec (t : Int) :
    daysBeforeYear (yearAndYday t).1 + (yearAndYday t).2 = t ∧
    0 ≤ (yearAndYday t).2 ∧
    (yearAndYday t).2 ≤ 364 + (if isLeap (yearAndYday t).1 = true then 1 else 0) := by
  dsimp only [yearAndYday, daysBeforeYear]
  simp only [isLeap, Bool.and_eq_true, Bool.or_eq_true, beq_iff_eq, bne_iff_ne,
    decide_eq_true_eq]
  generalize e1 : t / 146097 = n1
  generalize e2 : t - 146097 * n1 = d2
  generalize e3 : d2 / 36524 = q2
  generalize e4 : q2 - q2 / 4 = n2
  generalize e5 : d2 - 36524 * n2 = d3
  generalize e6 : d3 / 1461 = n3
  generalize e7 : d3 - 1461 * n3 = d4
  generalize e8 : d4 / 365 = q4
  generalize e9 : q4 - q4 / 4 = n4
  have b2 : 0 ≤ d2 ∧ d2 ≤ 146096 := by omega
  have b3 : 0 ≤ q2 ∧ q2 ≤ 4 := by omega
  have b4 : 0 ≤ n2 ∧ n2 ≤ 3 := by omega
  have b5 : 0 ≤ d3 ∧ d3 ≤ 36524 ∧ (d3 = 36524 → n2 = 3) := by omega
  have b6 : 0 ≤ n3 ∧ n3 ≤ 24 := by omega
  have b7 : 0 ≤ d4 ∧ d4 ≤ 1460 := by omega
  have b8 : 0 ≤ q4 ∧ q4 ≤ 4 ∧ (q4 = 4 → d4 = 1460) := by omega
  have b9 : 0 ≤ n4 ∧ n4 ≤ 3 := by omega
  have b10 : 0 ≤ d4 - 365 * n4 ∧ d4 - 365 * n4 ≤ 365 ∧
      (d4 - 365 * n4 = 365 → (q4 = 4 ∧ n4 = 3)) := by omega
  have b11 : d4 - 365 * n4 = 365 → n3 = 24 → (d3 = 36524 ∧ n2 = 3) := by omega
  have hdiv4 : (400 * n1 + 100 * n2 + 4 * n3 + n4 + 1 - 1) / 4
      = 100 * n1 + 25 * n2 + n3 := by omega
  have hdiv100 : (400 * n1 + 100 * n2 + 4 * n3 + n4 + 1 - 1) / 100
      = 4 * n1 + n2 := by omega
  have hdiv400 : (400 * n1 + 100 * n2 + 4 * n3 + n4 + 1 - 1) / 400 = n1 := by omega
  refine ⟨by omega, by omega, ?_⟩
  split_ifs with hL
  · omega
  · omega

/-- The month extraction is exact: it produces a month in `1..12` and a day
in `1..31`, and `daysBefore` plus the leap adjustment recovers the
day-of-year. -/
theorem ydayToMD_spec (year yday : Int) (h0 : 0 ≤ yday)
    (h1 : yday ≤ 364 + (if isLeap year = true then 1 else 0)) :
    1 ≤ (ydayToMD year yday).1 ∧ (ydayToMD year yday).1 ≤ 12 ∧
    1 ≤ (ydayToMD year yday).2 ∧ (ydayToMD year yday).2 ≤ 31 ∧
    daysBefore ((ydayToMD year yday).1 - 1)
      + (if isLeap year = true ∧ 3 ≤ (ydayToMD year yday).1 then 1 else 0)
      + ((ydayToMD year yday).2 - 1) = yday := by
  unfold ydayToMD
  cases hL : isLeap year with
  | false =>
    simp only [hL, Bool.false_eq_true, false_and, if_false] at h1 ⊢
    generalize hm : yday / 31 = m0
    have hma : 0 ≤ m0 := by omega
    have hmb : m0 ≤ 11 := by omega
    interval_cases m0 <;> split_ifs <;> norm_num [daysBefore] at * <;> omega
  | true =>
    simp only [hL, true_and, if_true] at h1 ⊢
    by_cases h59 : yday = 59
    · rw [if_pos h59]
      norm_num [daysBefore]
      omega
    · rw [if_neg h59]
      by_cases hgt : 59 < yday
      · rw [if_pos hgt]
        generalize hm : (yday - 1) / 31 = m0
        have hma : 0 ≤ m0 := by omega
        have hmb : m0 ≤ 11 := by omega
        interval_cases m0 <;> split_ifs <;> norm_num [daysBefore] at * <;> omega
      · rw [if_neg hgt]
        generalize hm : yday / 31 = m0
        have hma : 0 ≤ m0 := by omega
        have hmb : m0 ≤ 1 := by omega
        interval_cases m0 <;> split_ifs <;> norm_num [daysBefore] at * <;> omega

/-- Decomposing a day number and re-encoding the civil date gives the day
number back. -/
theorem daysFromCivil_civilFromDays (t : Int) :
    daysFromCivil (civilFromDays t).1 (civilFromDays t).2.1 (civilFromDays t).2.2 = t := by
  obtain ⟨hsum, h0, h1⟩ := yearAndYday_spec t
  obtain ⟨hm1, hm12, hd1, hd31, hmd⟩ := ydayToMD_spec (yearAndYday t).1 (yearAndYday t).2 h0 h1
  dsimp only [civilFromDays] at *
  unfold daysFromCivil
  dsimp only
  have hdiv : ((ydayToMD (yearAndYday t).1 (yearAndYday t).2).1 - 1) / 12 = 0 := by omega
  have hmod : ((ydayToMD (yearAndYday t).1 (yearAndYday t).2).1 - 1) % 12
      = (ydayToMD (yearAndYday t).1 (yearAndYday t).2).1 - 1 := by omega
  rw [hdiv, hmod, add_zero]
  have harg : (ydayToMD (yearAndYday t).1 (yearAndYday t).2).1 - 1 + 1
      = (ydayToMD (yearAndYday t).1 (yearAndYday t).2).1 := by ring
  rw [harg]
  split_ifs at hmd ⊢ <;> omega

/-- The month and day produced by `civilFromDays` are in calendar range. -/
theorem civilFromDays_range (t : Int) :
    1 ≤ (civilFromDays t).2.1 ∧ (civilFromDays t).2.1 ≤ 12 ∧
    1 ≤ (civilFromDays t).2.2 ∧ (civilFromDays t).2.2 ≤ 31 := by
  obtain ⟨hsum, h0, h1⟩ := yearAndYday_spec t
  obtain ⟨hm1, hm12, hd1, hd31, hmd⟩ := ydayToMD_spec (yearAndYday t).1 (yearAndYday t).2 h0 h1
  dsimp only [civilFromDays]
  exact ⟨hm1, hm12, hd1, hd31⟩

/-- `daysFromCivil` is linear in the day argument. -/
theorem daysFromCivil_day_add (y m d k : Int) :
    daysFromCivil y m (d + k) = daysFromCivil y m d + k := by
  unfold daysFromCivil
  dsimp only
  split_ifs <;> omega

/-- Advancing one calendar month strictly increases the day number
(stated for a month index that may already carry a roll-over of up to one
year, so steps can be chained). -/
theorem daysFromCivil_month_step (y m d : Int) (h1 : 1 ≤ m) (h2 : m ≤ 24) :
    daysFromCivil y m d < daysFromCivil y (m + 1) d := by
  unfold daysFromCivil
  dsimp only
  simp only [isLeap, Bool.and_eq_true, Bool.or_eq_true, beq_iff_eq, bne_iff_ne,
    decide_eq_true_eq]
  unfold daysBeforeYear
  interval_cases m <;> norm_num [daysBefore] <;> split_ifs <;> omega

/-- Advancing one calendar year strictly increases the day number. -/
theorem daysFromCivil_year_step (y m d : Int) (h1 : 1 ≤ m) (h2 : m ≤ 12) :
    daysFromCivil y m d < daysFromCivil (y + 1) m d := by
  unfold daysFromCivil
  dsimp only
  simp only [isLeap, Bool.and_eq_true, Bool.or_eq_true, beq_iff_eq, bne_iff_ne,
    decide_eq_true_eq]
  unfold daysBeforeYear
  interval_cases m <;> norm_num [daysBefore] <;> first
  | omega
  | (split_ifs <;> omega)

/-- Advancing by `q` calendar months, `1 ≤ q ≤ 12`, strictly increases the
day number when the starting month is valid. -/
theorem daysFromCivil_months_lt (y m d q : Int) (h1 : 1 ≤ m) (h2 : m ≤ 12)
    (hq1 : 1 ≤ q) (hq2 : q ≤ 12) :
    daysFromCivil y m d < daysFromCivil y (m + q) d := by
  have key : ∀ n : Nat, (n : Int) + 1 ≤ 12 → daysFromCivil y m d
      < daysFromCivil y (m + ((n : Int) + 1)) d := by
    intro n
    induction n with
    | zero =>
      intro _
      exact daysFromCivil_month_step y m d h1 (by omega)
    | succ k ih =>
      intro hk
      have step : daysFromCivil y (m + ((k : Int) + 1)) d
          < daysFromCivil y (m + ((k : Int) + 1) + 1) d := by
        apply daysFromCivil_month_step
        · omega
        · push_cast at hk ⊢
          omega
      have trans := lt_trans (ih (by push_cast at hk ⊢; omega)) step
      have harg : m + ((k : Int) + 1) + 1 = m + (((k : Nat) + 1 : Nat) : Int) + 0 + 1 := by
        push_cast
        ring
      calc daysFromCivil y m d < daysFromCivil y (m + ((k : Int) + 1) + 1) d := trans
        _ = daysFromCivil y (m + (((k + 1 : Nat) : Int) + 1)) d := by
            norm_num
            push_cast
            ring_nf
  obtain ⟨n, hn⟩ : ∃ n : Nat, q = (n : Int) + 1 := ⟨(q - 1).toNat, by omega⟩
  subst hn
  exact key n (by omega)

/-- `AddDate` with a positive day offset advances by exactly that many
days. -/
theorem addDate_days (t k : Int) : AddDate t 0 0 k = t + k := by
  unfold AddDate
  have h := daysFromCivil_civilFromDays t
  rw [add_zero, add_zero]
  calc daysFromCivil (civilFromDays t).1 (civilFromDays t).2.1 ((civilFromDays t).2.2 + k)
      = daysFromCivil (civilFromDays t).1 (civilFromDays t).2.1 (civilFromDays t).2.2 + k :=
        daysFromCivil_day_add _ _ _ k
    _ = t + k := by rw [h]

/-- `AddDate` with a month offset `1 ≤ q ≤ 12` strictly increases the day
number. -/
theorem addDate_months_lt (t q : Int) (hq1 : 1 ≤ q) (hq2 : q ≤ 12) :
    t < AddDate t 0 q 0 := by
  unfold AddDate
  obtain ⟨hm1, hm12, hd1, hd31⟩ := civilFromDays_range t
  have h := daysFromCivil_civilFromDays t
  rw [add_zero, add_zero]
  calc t = daysFromCivil (civilFromDays t).1 (civilFromDays t).2.1 (civilFromDays t).2.2 :=
        h.symm
    _ < daysFromCivil (civilFromDays t).1 ((civilFromDays t).2.1 + q) (civilFromDays t).2.2 :=
        daysFromCivil_months_lt _ _ _ q hm1 hm12 hq1 hq2

/-- `AddDate` with a one-year offset strictly increases the day number. -/
theorem addDate_year_lt (t : Int) : t < AddDate t 1 0 0 := by
  unfold AddDate
  obtain ⟨hm1, hm12, hd1, hd31⟩ := civilFromDays_range t
  have h := daysFromCivil_civilFromDays t
  rw [add_zero, add_zero]
  calc t = daysFromCivil (civilFromDays t).1 (civilFromDays t).2.1 (civilFromDays t).2.2 :=
        h.symm
    _ < daysFromCivil ((civilFromDays t).1 + 1) (civilFromDays t).2.1 (civilFromDays t).2.2 :=
        daysFromCivil_year_step _ _ _ hm1 hm12

/-- Go `Frequency`: a plain string tag. -/
abbrev Frequency := String

/-- The `Daily` frequency constant. -/
def Daily : Frequency := "daily"

/-- The `Weekly` frequency constant. -/
def Weekly : Frequency := "weekly"

/-- The `Monthly` frequency constant. -/
def Monthly : Frequency := "monthly"

/-- The `Quarterly` frequency constant. -/
def Quarterly : Frequency := "quarterly"

/-- The `SemiAnnual` frequency constant. -/
def SemiAnnual : Frequency := "semi-annual"

/-- The `Annual` frequency constant. -/
def Annual : Frequency := "annual"

/-- Go's `frequencyDeltas` lookup table: maps a recognised frequency tag to
its date-advancement function (`AddDate` offsets), `none` for any other
string (a missing map key). -/
def frequencyDeltas (f : Frequency) : Option (Int → Int) :=
  if f = Daily then some (fun t => AddDate t 0 0 1)
  else if f = Weekly then some (fun t => AddDate t 0 0 7)
  else if f = Monthly then some (fun t => AddDate t 0 1 0)
  else if f = Quarterly then some (fun t => AddDate t 0 3 0)
  else if f = SemiAnnual then some (fun t => AddDate t 0 6 0)
  else if f = Annual then some (fun t => AddDate t 1 0 0)
  else none

/-- Go's `IsValidFrequency`: membership in the `frequencyDeltas` table. -/
def IsValidFrequency (f : Frequency) : Bool :=
  (frequencyDeltas f).isSome

/-- Go's `GetNextDate`: apply the frequency's delta, or fail on an
unrecognised tag (the Go version returns an `invalid frequency` error). -/
def GetNextDate (currentDate : Int) (f : Frequency) : Option Int :=
  match frequencyDeltas f with
  | none => none
  | some delta => some (delta currentDate)

/-- Every successful `GetNextDate` strictly advances the date: each of the
six deltas in `frequencyDeltas` is strictly increasing. -/
theorem getNextDate_lt (t : Int) (f : Frequency) (t' : Int)
    (h : GetNextDate t f = some t') : t < t' := by
  unfold GetNextDate frequencyDeltas at h
  split_ifs at h <;> dsimp only at h
  · injection h with h
    rw [← h, addDate_days]
    omega
  · injection h with h
    rw [← h, addDate_days]
    omega
  · injection h with h
    rw [← h]
    exact addDate_months_lt t 1 (by norm_num) (by norm_num)
  · injection h with h
    rw [← h]
    exact addDate_months_lt t 3 (by norm_num) (by norm_num)
  · injection h with h
    rw [← h]
    exact addDate_months_lt t 6 (by norm_num) (by norm_num)
  · injection h with h
    rw [← h]
    exact addDate_year_lt t

/-- Go's `Event`.  `EndDate` is optional: Go uses the zero `time.Time` as
the "absent" sentinel and guards every use with `!EndDate.IsZero()`, which
is exactly an option type.  An absent `Frequency` is the empty string, as
in Go.  Monetary values are rationals (see the header note). -/
structure Event where
  Name : String
  StartDate : Int
  EndDate : Option Int := none
  Frequency : Frequency := ""
  Value : ℚ
deriving DecidableEq

/-- Go's `CashflowItem`. -/
structure CashflowItem where
  Name : String
  Value : ℚ
deriving DecidableEq

/-- Go's `Cashflow`: one aggregated ledger row. -/
structure Cashflow where
  Date : Int
  Cashflow : ℚ
  Balance : ℚ
  Items : List CashflowItem
deriving DecidableEq

/-- Go's `SimulationRequest`. -/
structure SimulationRequest where
  Events : List Event
  InitialBalance : ℚ
  SimStart : Int
  SimEnd : Int
deriving DecidableEq

/-- Go's `SimulationResponse`. -/
structure SimulationResponse where
  Cashflows : List Cashflow
deriving DecidableEq

deriving instance DecidableEq for Except

/-- `!endDate.IsZero() && endDate.Before(d)` in Go: the optional end date
is present and strictly before `d`. -/
def endsBefore (endDate : Option Int) (d : Int) : Bool :=
  match endDate with
  | none => false
  | some e => decide (e < d)

/-- The `for currentDate.Before(cfBegin)` search loop inside Go's
`GetFirstDate`: advance via `GetNextDate` until the date is no longer
strictly before `cfBegin`; an advancement failure aborts with `none`.
It terminates because every successful advancement strictly increases the
date (`getNextDate_lt`). -/
def GetFirstDateLoop (freq : Frequency) (cfBegin current : Int) : Option Int :=
  if h : current < cfBegin then
    match hx : GetNextDate current freq with
    | none => none
    | some next => GetFirstDateLoop freq cfBegin next
  else some current
termination_by (cfBegin - current).toNat
decreasing_by
  have := getNextDate_lt current freq next hx
  omega

/-- Go's `GetFirstDate`: first occurrence of an event inside the window
`[cfBegin, cfEnd]`, `none` when the event cannot fire there. -/
def GetFirstDate (event : Event) (cfBegin cfEnd : Int) : Option Int :=
  if cfEnd < event.StartDate then none
  else if endsBefore event.EndDate cfBegin then none
  else if event.Frequency = "" ∨ event.EndDate = some event.StartDate then
    some event.StartDate
  else if event.Frequency = Daily then some cfBegin
  else GetFirstDateLoop event.Frequency cfBegin event.StartDate

/-- `cfMap[date] = append(cfMap[date], item)` on an insertion-ordered
association list: append to the existing bucket, or add a new key. -/
def appendToMap (m : List (Int × List CashflowItem)) (d : Int) (item : CashflowItem) :
    List (Int × List CashflowItem) :=
  match m with
  | [] => [(d, [item])]
  | (d', items) :: rest =>
    if d' = d then (d', items ++ [item]) :: rest
    else (d', items) :: appendToMap rest d item

/-- The inner `for {}` expansion loop of Go's `GenerateCashflows`: record a
contribution at each occurrence while it is within `cfEnd` and within the
event's optional end date; stop after one contribution for events without
recurrence; stop silently if advancement fails. -/
def expandEvent (event : Event) (cfEnd current : Int)
    (m : List (Int × List CashflowItem)) : List (Int × List CashflowItem) :=
  if h : cfEnd < current then m
  else if endsBefore event.EndDate current then m
  else
    let m' := appendToMap m current ⟨event.Name, event.Value⟩
    if event.Frequency = "" then m'
    else
      match hx : GetNextDate current event.Frequency with
      | none => m'
      | some next => expandEvent event cfEnd next m'
termination_by (cfEnd + 1 - current).toNat
decreasing_by
  have := getNextDate_lt current event.Frequency next hx
  omega

/-- `total += item.Value` over a date's bucket. -/
def itemsTotal (items : List CashflowItem) : ℚ :=
  items.foldl (fun t item => t + item.Value) 0

/-- The insertion step of the date sort. -/
def insertByDate (cf : Cashflow) : List Cashflow → List Cashflow
  | [] => [cf]
  | c :: rest => if cf.Date ≤ c.Date then cf :: c :: rest else c :: insertByDate cf rest

/-- Go's `sortCashflowsByDate` sorts with the comparator
`cashflows[i].Date.Before(cashflows[j].Date)`; since the generator's dates
are pairwise distinct, any comparison sort with that comparator produces
the same list, modelled here as an insertion sort by date. -/
def sortCashflowsByDate (l : List Cashflow) : List Cashflow :=
  l.foldr insertByDate []

/-- The body of the `for _, event := range events` loop in Go's
`GenerateCashflows`: skip zero-value events, resolve the first occurrence
(skipping the event when there is none), and expand it into the map. -/
def processEvent (cfBegin cfEnd : Int) (m : List (Int × List CashflowItem))
    (event : Event) : List (Int × List CashflowItem) :=
  if event.Value = 0 then m
  else
    match GetFirstDate event cfBegin cfEnd with
    | none => m
    | some first => expandEvent event cfEnd first m

/-- Go's `GenerateCashflows`: reject an inverted window, expand each
nonzero-value event from its first occurrence, aggregate per date, and
sort by date. -/
def GenerateCashflows (events : List Event) (cfBegin cfEnd : Int) :
    Except String (List Cashflow) :=
  if cfEnd < cfBegin then Except.error ("cf_begin must be before or equal to cf_end")
  else
    let cfMap := events.foldl (processEvent cfBegin cfEnd) []
    let cashflows := cfMap.map
      (fun p => { Date := p.1, Cashflow := itemsTotal p.2, Balance := 0, Items := p.2 })
    Except.ok (sortCashflowsByDate cashflows)

/-- The `runningBalance` fold inside Go's `BalanceFromCashflows`. -/
def accumulate (runningBalance : ℚ) : List Cashflow → List Cashflow
  | [] => []
  | cf :: rest =>
    { cf with Balance := runningBalance + cf.Cashflow }
      :: accumulate (runningBalance + cf.Cashflow) rest

/-- Go's `BalanceFromCashflows`: prepend the synthetic initial-balance row
(dated `simStart`, zero cashflow, empty items) and fold the running
balance over the generator's rows. -/
def BalanceFromCashflows (initialBalance : ℚ) (simStart : Int)
    (cashflows : List Cashflow) : List Cashflow :=
  { Date := simStart, Cashflow := 0, Balance := initialBalance, Items := ([] : List CashflowItem) }
    :: accumulate initialBalance cashflows

/-- Go's `RunSimulation`: generate, wrap a generation failure in the
`failed to generate cashflows` message, otherwise accumulate balances. -/
def RunSimulation (req : SimulationRequest) : Except String SimulationResponse :=
  match GenerateCashflows req.Events req.SimStart req.SimEnd with
  | Except.error msg => Except.error ("failed to generate cashflows: " ++ msg)
  | Except.ok cashflows =>
    Except.ok { Cashflows := BalanceFromCashflows req.InitialBalance req.SimStart cashflows }

theorem getFirstDateLoop_done (freq : Frequency) (cfBegin current : Int)
    (h : ¬ current < cfBegin) : GetFirstDateLoop freq cfBegin current = some current := by
  rw [GetFirstDateLoop]
  simp [h]

theorem getFirstDateLoop_err (freq : Frequency) (cfBegin current : Int)
    (h : current < cfBegin) (hx : GetNextDate current freq = none) :
    GetFirstDateLoop freq cfBegin current = none := by
  rw [GetFirstDateLoop]
  simp only [h, dite_true, dif_pos]
  split <;> simp_all

theorem getFirstDateLoop_step (freq : Frequency) (cfBegin current next : Int)
    (h : current < cfBegin) (hx : GetNextDate current freq = some next) :
    GetFirstDateLoop freq cfBegin current = GetFirstDateLoop freq cfBegin next := by
  rw [GetFirstDateLoop]
  simp only [h, dite_true, dif_pos]
  split <;> simp_all

theorem expandEvent_stop_past (event : Event) (cfEnd current : Int)
    (m : List (Int × List CashflowItem)) (h : cfEnd < current) :
    expandEvent event cfEnd current m = m := by
  rw [expandEvent]
  simp [h]

theorem expandEvent_stop_ended (event : Event) (cfEnd current : Int)
    (m : List (Int × List CashflowItem)) (h : ¬ cfEnd < current)
    (h2 : endsBefore event.EndDate current = true) :
    expandEvent event cfEnd current m = m := by
  rw [expandEvent]
  simp [h, h2]

theorem expandEvent_once (event : Event) (cfEnd current : Int)
    (m : List (Int × List CashflowItem)) (h : ¬ cfEnd < current)
    (h2 : endsBefore event.EndDate current = false) (h3 : event.Frequency = "") :
    expandEvent event cfEnd current m
      = appendToMap m current ⟨event.Name, event.Value⟩ := by
  rw [expandEvent]
  simp [h, h2, h3]

theorem expandEvent_adv_err (event : Event) (cfEnd current : Int)
    (m : List (Int × List CashflowItem)) (h : ¬ cfEnd < current)
    (h2 : endsBefore event.EndDate current = false) (h3 : ¬ event.Frequency = "")
    (hx : GetNextDate current event.Frequency = none) :
    expandEvent event cfEnd current m
      = appendToMap m current ⟨event.Name, event.Value⟩ := by
  rw [expandEvent]
  simp only [h, h2, h3, dif_neg, if_neg, Bool.false_eq_true, if_false, not_false_eq_true]
  split <;> simp_all

theorem expandEvent_adv (event : Event) (cfEnd current next : Int)
    (m : List (Int × List CashflowItem)) (h : ¬ cfEnd < current)
    (h2 : endsBefore event.EndDate current = false) (h3 : ¬ event.Frequency = "")
    (hx : GetNextDate current event.Frequency = some next) :
    expandEvent event cfEnd current m
      = expandEvent event cfEnd next (appendToMap m current ⟨event.Name, event.Value⟩) := by
  rw [expandEvent]
  simp only [h, h2, h3, dif_neg, if_neg, Bool.false_eq_true, if_false, not_false_eq_true]
  split <;> simp_all


/-- Adding an item to the aggregation map preserves a predicate that holds
for every key and for the new date. -/
theorem appendToMap_mem_date (P : Int → Prop) (m : List (Int × List CashflowItem))
    (d : Int) (item : CashflowItem) (hm : ∀ p ∈ m, P p.1) (hd : P d) :
    ∀ p ∈ appendToMap m d item, P p.1 := by
  induction m with
  | nil =>
    intro p hp
    simp only [appendToMap, List.mem_singleton] at hp
    subst hp
    exact hd
  | cons q rest ih =>
    intro p hp
    obtain ⟨qd, qitems⟩ := q
    simp only [appendToMap] at hp
    split_ifs at hp with hq
    · rcases List.mem_cons.mp hp with h | h
      · subst h
        exact hm ⟨qd, qitems⟩ (List.mem_cons_self _ _)
      · exact hm _ (List.mem_cons_of_mem _ h)
    · rcases List.mem_cons.mp hp with h | h
      · subst h
        exact hm _ (List.mem_cons_self _ _)
      · exact ih (fun r hr => hm r (List.mem_cons_of_mem _ hr)) p h

/-- Adding an item preserves a predicate that holds for every stored item
and for the new item. -/
theorem appendToMap_mem_item (P : CashflowItem → Prop) (m : List (Int × List CashflowItem))
    (d : Int) (item : CashflowItem) (hm : ∀ p ∈ m, ∀ it ∈ p.2, P it) (hi : P item) :
    ∀ p ∈ appendToMap m d item, ∀ it ∈ p.2, P it := by
  induction m with
  | nil =>
    intro p hp
    simp only [appendToMap, List.mem_singleton] at hp
    subst hp
    intro it hit
    simp only [List.mem_singleton] at hit
    subst hit
    exact hi
  | cons q rest ih =>
    intro p hp
    obtain ⟨qd, qitems⟩ := q
    simp only [appendToMap] at hp
    split_ifs at hp with hq
    · rcases List.mem_cons.mp hp with h | h
      · subst h
        intro it hit
        rcases List.mem_append.mp hit with h2 | h2
        · exact hm ⟨qd, qitems⟩ (List.mem_cons_self _ _) it h2
        · simp only [List.mem_singleton] at h2
          subst h2
          exact hi
      · exact hm _ (List.mem_cons_of_mem _ h)
    · rcases List.mem_cons.mp hp with h | h
      · subst h
        exact hm _ (List.mem_cons_self _ _)
      · exact ih (fun r hr => hm r (List.mem_cons_of_mem _ hr)) p h

/-- The keys after adding an item are the old keys, possibly with the new
date appended. -/
theorem appendToMap_mem_keys (m : List (Int × List CashflowItem)) (d : Int)
    (item : CashflowItem) (x : Int) :
    x ∈ (appendToMap m d item).map Prod.fst ↔ x ∈ m.map Prod.fst ∨ x = d := by
  induction m with
  | nil => simp [appendToMap]
  | cons q rest ih =>
    obtain ⟨qd, qitems⟩ := q
    simp only [appendToMap]
    split_ifs with hq
    · subst hq
      simp only [List.map_cons, List.mem_cons]
      constructor
      · intro h
        rcases h with h | h
        · exact Or.inl (Or.inl h)
        · exact Or.inl (Or.inr h)
      · intro h
        rcases h with (h | h) | h
        · exact Or.inl h
        · exact Or.inr h
        · exact Or.inl h
    · simp only [List.map_cons, List.mem_cons, ih]
      tauto

/-- Adding an item preserves distinctness of the keys. -/
theorem appendToMap_nodup (m : List (Int × List CashflowItem)) (d : Int)
    (item : CashflowItem) (hm : (m.map Prod.fst).Nodup) :
    ((appendToMap m d item).map Prod.fst).Nodup := by
  induction m with
  | nil => simp [appendToMap]
  | cons q rest ih =>
    obtain ⟨qd, qitems⟩ := q
    simp only [List.map_cons, List.nodup_cons] at hm
    simp only [appendToMap]
    split_ifs with hq
    · simp only [List.map_cons, List.nodup_cons]
      exact hm
    · simp only [List.map_cons, List.nodup_cons]
      constructor
      · intro hmem
        rcases (appendToMap_mem_keys rest d item qd).mp hmem with h | h
        · exact hm.1 h
        · exact hq h
      · exact ih hm.2

/-- Every key added by the expansion loop is at most `cfEnd`: the loop
breaks before recording any later occurrence. -/
theorem expandEvent_mem_le (event : Event) (cfEnd : Int) :
    ∀ current m, (∀ p ∈ m, p.1 ≤ cfEnd) →
      ∀ p ∈ expandEvent event cfEnd current m, p.1 ≤ cfEnd := by
  intro current m
  induction current, m using expandEvent.induct event cfEnd with
  | case1 current m h =>
    intro hm
    rw [expandEvent_stop_past event cfEnd current m h]
    exact hm
  | case2 current m h h2 =>
    intro hm
    rw [expandEvent_stop_ended event cfEnd current m h h2]
    exact hm
  | case3 current m h h2 h3 =>
    intro hm
    rw [expandEvent_once event cfEnd current m h (by simpa using h2) h3]
    exact appendToMap_mem_date (fun d => d ≤ cfEnd) m current _ hm (by show current ≤ cfEnd; omega)
  | case4 current m h h2 h3 hx =>
    intro hm
    rw [expandEvent_adv_err event cfEnd current m h (by simpa using h2) h3 hx]
    exact appendToMap_mem_date (fun d => d ≤ cfEnd) m current _ hm (by show current ≤ cfEnd; omega)
  | case5 current m h h2 m' h3 next hx ih =>
    intro hm
    rw [expandEvent_adv event cfEnd current next m h (by simpa using h2) h3 hx]
    exact ih (appendToMap_mem_date (fun d => d ≤ cfEnd) m current _ hm (by show current ≤ cfEnd; omega))

/-- Every key added by the expansion loop is at least the starting
occurrence, since advancement only moves forward. -/
theorem expandEvent_mem_ge (event : Event) (cfEnd L : Int) :
    ∀ current m, L ≤ current → (∀ p ∈ m, L ≤ p.1) →
      ∀ p ∈ expandEvent event cfEnd current m, L ≤ p.1 := by
  intro current m
  induction current, m using expandEvent.induct event cfEnd with
  | case1 current m h =>
    intro hc hm
    rw [expandEvent_stop_past event cfEnd current m h]
    exact hm
  | case2 current m h h2 =>
    intro hc hm
    rw [expandEvent_stop_ended event cfEnd current m h h2]
    exact hm
  | case3 current m h h2 h3 =>
    intro hc hm
    rw [expandEvent_once event cfEnd current m h (by simpa using h2) h3]
    exact appendToMap_mem_date _ m current _ hm hc
  | case4 current m h h2 h3 hx =>
    intro hc hm
    rw [expandEvent_adv_err event cfEnd current m h (by simpa using h2) h3 hx]
    exact appendToMap_mem_date _ m current _ hm hc
  | case5 current m h h2 m' h3 next hx ih =>
    intro hc hm
    rw [expandEvent_adv event cfEnd current next m h (by simpa using h2) h3 hx]
    have hlt := getNextDate_lt current event.Frequency next hx
    exact ih (by omega) (appendToMap_mem_date _ m current _ hm hc)

/-- The expansion loop only ever records the event's own item, so any
predicate true of the stored items and of that item is preserved. -/
theorem expandEvent_mem_item (event : Event) (cfEnd : Int) (P : CashflowItem → Prop)
    (hP : P ⟨event.Name, event.Value⟩) :
    ∀ current m, (∀ p ∈ m, ∀ it ∈ p.2, P it) →
      ∀ p ∈ expandEvent event cfEnd current m, ∀ it ∈ p.2, P it := by
  intro current m
  induction current, m using expandEvent.induct event cfEnd with
  | case1 current m h =>
    intro hm
    rw [expandEvent_stop_past event cfEnd current m h]
    exact hm
  | case2 current m h h2 =>
    intro hm
    rw [expandEvent_stop_ended event cfEnd current m h h2]
    exact hm
  | case3 current m h h2 h3 =>
    intro hm
    rw [expandEvent_once event cfEnd current m h (by simpa using h2) h3]
    exact appendToMap_mem_item _ m current _ hm hP
  | case4 current m h h2 h3 hx =>
    intro hm
    rw [expandEvent_adv_err event cfEnd current m h (by simpa using h2) h3 hx]
    exact appendToMap_mem_item _ m current _ hm hP
  | case5 current m h h2 m' h3 next hx ih =>
    intro hm
    rw [expandEvent_adv event cfEnd current next m h (by simpa using h2) h3 hx]
    exact ih (appendToMap_mem_item _ m current _ hm hP)

/-- The expansion loop preserves distinctness of the map keys. -/
theorem expandEvent_nodup (event : Event) (cfEnd : Int) :
    ∀ current m, (m.map Prod.fst).Nodup →
      ((expandEvent event cfEnd current m).map Prod.fst).Nodup := by
  intro current m
  induction current, m using expandEvent.induct event cfEnd with
  | case1 current m h =>
    intro hm
    rw [expandEvent_stop_past event cfEnd current m h]
    exact hm
  | case2 current m h h2 =>
    intro hm
    rw [expandEvent_stop_ended event cfEnd current m h h2]
    exact hm
  | case3 current m h h2 h3 =>
    intro hm
    rw [expandEvent_once event cfEnd current m h (by simpa using h2) h3]
    exact appendToMap_nodup m current _ hm
  | case4 current m h h2 h3 hx =>
    intro hm
    rw [expandEvent_adv_err event cfEnd current m h (by simpa using h2) h3 hx]
    exact appendToMap_nodup m current _ hm
  | case5 current m h h2 m' h3 next hx ih =>
    intro hm
    rw [expandEvent_adv event cfEnd current next m h (by simpa using h2) h3 hx]
    exact ih (appendToMap_nodup m current _ hm)


/-- A successful first-occurrence search returns a date no earlier than the
date it started from. -/
theorem getFirstDateLoop_ge (freq : Frequency) (cfBegin : Int) :
    ∀ current r, GetFirstDateLoop freq cfBegin current = some r → current ≤ r := by
  intro current
  induction current using GetFirstDateLoop.induct freq cfBegin with
  | case1 current h hx =>
    intro r hr
    rw [getFirstDateLoop_err freq cfBegin current h hx] at hr
    exact Option.noConfusion hr
  | case2 current h next hx ih =>
    intro r hr
    rw [getFirstDateLoop_step freq cfBegin current next h hx] at hr
    have h1 := getNextDate_lt current freq next hx
    have h2 := ih r hr
    omega
  | case3 current h =>
    intro r hr
    rw [getFirstDateLoop_done freq cfBegin current h] at hr
    injection hr with hr
    omega

/-- For a recognised frequency the first-occurrence search always
succeeds: every advancement succeeds, and it strictly increases the date,
so the loop reaches a date no longer before `cfBegin`. -/
theorem getFirstDateLoop_isSome (freq : Frequency) (cfBegin : Int)
    (hval : IsValidFrequency freq = true) :
    ∀ current, (GetFirstDateLoop freq cfBegin current).isSome = true := by
  intro current
  induction current using GetFirstDateLoop.induct freq cfBegin with
  | case1 current h hx =>
    exfalso
    unfold IsValidFrequency at hval
    unfold GetNextDate at hx
    cases hd : frequencyDeltas freq with
    | none => rw [hd] at hval; exact Bool.noConfusion hval
    | some delta => rw [hd] at hx; exact Option.noConfusion hx
  | case2 current h next hx ih =>
    rw [getFirstDateLoop_step freq cfBegin current next h hx]
    exact ih
  | case3 current h =>
    rw [getFirstDateLoop_done freq cfBegin current h]
    rfl

/-- Any first occurrence is bounded below by every bound common to the
window start and the event's start date: the resolver only ever returns
the start date, the window start, or an advanced start date. -/
theorem getFirstDate_ge (event : Event) (cfBegin cfEnd s L : Int)
    (h : GetFirstDate event cfBegin cfEnd = some s)
    (h1 : L ≤ cfBegin) (h2 : L ≤ event.StartDate) : L ≤ s := by
  unfold GetFirstDate at h
  split_ifs at h with c1 c2 c3 c4
  · injection h with h
    omega
  · injection h with h
    omega
  · have := getFirstDateLoop_ge event.Frequency cfBegin event.StartDate s h
    omega

/-- Inserting into a sorted-by-date list is a permutation of consing. -/
theorem insertByDate_perm (cf : Cashflow) (l : List Cashflow) :
    (insertByDate cf l).Perm (cf :: l) := by
  induction l with
  | nil => exact List.Perm.refl _
  | cons c rest ih =>
    simp only [insertByDate]
    split_ifs
    · exact List.Perm.refl _
    · exact List.Perm.trans (List.Perm.cons c ih) (List.Perm.swap cf c rest)

/-- The date sort permutes its input. -/
theorem sortCashflowsByDate_perm (l : List Cashflow) :
    (sortCashflowsByDate l).Perm l := by
  induction l with
  | nil => exact List.Perm.refl _
  | cons c rest ih =>
    have : sortCashflowsByDate (c :: rest) = insertByDate c (sortCashflowsByDate rest) := rfl
    rw [this]
    exact List.Perm.trans (insertByDate_perm c _) (List.Perm.cons c ih)

/-- Inserting into a list sorted by date keeps it sorted by date. -/
theorem insertByDate_sorted (cf : Cashflow) (l : List Cashflow)
    (h : l.Pairwise (fun a b => a.Date ≤ b.Date)) :
    (insertByDate cf l).Pairwise (fun a b => a.Date ≤ b.Date) := by
  induction l with
  | nil => simp [insertByDate]
  | cons c rest ih =>
    simp only [insertByDate]
    rcases List.pairwise_cons.mp h with ⟨hc, hrest⟩
    split_ifs with hle
    · refine List.pairwise_cons.mpr ⟨?_, h⟩
      intro x hx
      rcases List.mem_cons.mp hx with hx | hx
      · subst hx
        exact hle
      · exact le_trans hle (hc x hx)
    · refine List.pairwise_cons.mpr ⟨?_, ih hrest⟩
      intro x hx
      have hx2 := (insertByDate_perm cf rest).mem_iff.mp hx
      rcases List.mem_cons.mp hx2 with hx2 | hx2
      · subst hx2
        omega
      · exact hc x hx2

/-- The date sort produces a list sorted by date. -/
theorem sortCashflowsByDate_sorted (l : List Cashflow) :
    (sortCashflowsByDate l).Pairwise (fun a b => a.Date ≤ b.Date) := by
  induction l with
  | nil => simp [sortCashflowsByDate]
  | cons c rest ih => exact insertByDate_sorted c _ ih

/-- The running total over a bucket is the sum of its values. -/
theorem itemsTotal_eq (items : List CashflowItem) :
    itemsTotal items = (items.map CashflowItem.Value).sum := by
  have key : ∀ (l : List CashflowItem) (a : ℚ),
      l.foldl (fun t item => t + item.Value) a = a + (l.map CashflowItem.Value).sum := by
    intro l
    induction l with
    | nil => intro a; simp
    | cons it rest ih =>
      intro a
      simp only [List.foldl_cons, List.map_cons, List.sum_cons, ih]
      ring
  simpa using key items 0

/-- The balance fold keeps the length. -/
theorem accumulate_length (r : ℚ) (l : List Cashflow) :
    (accumulate r l).length = l.length := by
  induction l generalizing r with
  | nil => rfl
  | cons c rest ih => simp [accumulate, ih]

/-- The balance fold keeps every date. -/
theorem accumulate_map_date (r : ℚ) (l : List Cashflow) :
    (accumulate r l).map Cashflow.Date = l.map Cashflow.Date := by
  induction l generalizing r with
  | nil => rfl
  | cons c rest ih => simp [accumulate, ih]

/-- Element `i` of the balance fold is element `i` of the input with its
balance set to the running prefix sum. -/
theorem accumulate_getElem (l : List Cashflow) :
    ∀ (r : ℚ) (i : Nat) (c : Cashflow), l[i]? = some c →
      (accumulate r l)[i]?
        = some { c with Balance := r + (((l.take (i + 1)).map Cashflow.Cashflow).sum) } := by
  induction l with
  | nil =>
    intro r i c hc
    simp at hc
  | cons d rest ih =>
    intro r i c hc
    cases i with
    | zero =>
      simp only [List.getElem?_cons_zero, Option.some.injEq] at hc
      subst hc
      simp [accumulate]
    | succ j =>
      simp only [List.getElem?_cons_succ] at hc
      have := ih (r + d.Cashflow) j c hc
      simp only [accumulate, List.getElem?_cons_succ, this, List.take_succ_cons,
        List.map_cons, List.sum_cons, Option.some.injEq]
      congr 1
      ring_nf

/-- Lifting an invariant over the per-event fold: any property of the
aggregation map preserved by each in-range expansion is preserved by the
whole fold. -/
theorem foldl_processEvent_inv (cfBegin cfEnd : Int)
    (P : List (Int × List CashflowItem) → Prop) (events : List Event)
    (hstep : ∀ event ∈ events, ∀ first m, P m →
      GetFirstDate event cfBegin cfEnd = some first → ¬ event.Value = 0 →
      P (expandEvent event cfEnd first m)) :
    ∀ m, P m → P (events.foldl (processEvent cfBegin cfEnd) m) := by
  induction events with
  | nil =>
    intro m hm
    exact hm
  | cons ev rest ih =>
    intro m hm
    simp only [List.foldl_cons]
    apply ih (fun e he => hstep e (List.mem_cons_of_mem _ he))
    unfold processEvent
    split_ifs with hv
    · exact hm
    · cases hf : GetFirstDate ev cfBegin cfEnd with
      | none => exact hm
      | some first => exact hstep ev (List.mem_cons_self _ _) first m hm hf hv

/-- On a valid window `GenerateCashflows` returns exactly the sorted,
aggregated image of the per-event fold. -/
theorem generateCashflows_ok (events : List Event) (cfBegin cfEnd : Int)
    (l : List Cashflow) (h : GenerateCashflows events cfBegin cfEnd = Except.ok l) :
    ¬ cfEnd < cfBegin ∧
    l = sortCashflowsByDate ((events.foldl (processEvent cfBegin cfEnd) []).map
      (fun p => { Date := p.1, Cashflow := itemsTotal p.2, Balance := 0, Items := p.2 })) := by
  unfold GenerateCashflows at h
  split_ifs at h with hw
  · refine ⟨hw, ?_⟩
    injection h with h
    exact h.symm

/-- A list sorted by date with pairwise-distinct dates is strictly
increasing in date. -/
theorem sorted_nodup_strict (l : List Cashflow)
    (hs : l.Pairwise (fun a b => a.Date ≤ b.Date))
    (hn : (l.map Cashflow.Date).Nodup) :
    l.Pairwise (fun a b => a.Date < b.Date) := by
  rw [List.Nodup, List.pairwise_map] at hn
  induction l with
  | nil => exact List.Pairwise.nil
  | cons c rest ih =>
    rcases List.pairwise_cons.mp hs with ⟨hc, hrest⟩
    rcases List.pairwise_cons.mp hn with ⟨hnc, hnrest⟩
    refine List.pairwise_cons.mpr ⟨?_, ih hrest hnrest⟩
    intro x hx
    exact lt_of_le_of_ne (hc x hx) (hnc x hx)

/-- C2: `GenerateCashflows` fails if and only if the window is inverted
(`cf_begin` strictly after `cf_end`), for every event list including the
empty one; on every valid window it succeeds; and `RunSimulation`
propagates that single failure mode wrapped in its own message without
producing any partial result, while on generator success it returns the
accumulated ledger. -/
theorem C2_generateCashflows_invalidWindow (events : List Event) (b e : Int)
    (req : SimulationRequest) :
    ((∃ msg, GenerateCashflows events b e = Except.error msg) ↔ e < b) ∧
    (¬ e < b → ∃ l, GenerateCashflows events b e = Except.ok l) ∧
    (∀ msg, GenerateCashflows req.Events req.SimStart req.SimEnd = Except.error msg →
      RunSimulation req = Except.error ("failed to generate cashflows: " ++ msg)) ∧
    (∀ l, GenerateCashflows req.Events req.SimStart req.SimEnd = Except.ok l →
      RunSimulation req
        = Except.ok ⟨BalanceFromCashflows req.InitialBalance req.SimStart l⟩) := by
  refine ⟨⟨?_, ?_⟩, ?_, ?_, ?_⟩
  · rintro ⟨msg, hmsg⟩
    unfold GenerateCashflows at hmsg
    split_ifs at hmsg with hw
    exact hw
  · intro hlt
    unfold GenerateCashflows
    rw [if_pos hlt]
    exact ⟨_, rfl⟩
  · intro hw
    unfold GenerateCashflows
    rw [if_neg hw]
    exact ⟨_, rfl⟩
  · intro msg hmsg
    unfold RunSimulation
    rw [hmsg]
  · intro l hl
    unfold RunSimulation
    rw [hl]

/-- Witness for C2 at a concrete inverted and a concrete valid window. -/
theorem C2_witness :
    (∃ msg, GenerateCashflows [] 5 3 = Except.error msg) ∧
    (∃ l, GenerateCashflows [] 3 5 = Except.ok l) ∧
    RunSimulation ⟨[], 100, 5, 3⟩
      = Except.error ("failed to generate cashflows: "
          ++ "cf_begin must be before or equal to cf_end") :=
  ⟨(C2_generateCashflows_invalidWindow [] 5 3 ⟨[], 100, 5, 3⟩).1.mpr (by norm_num),
   (C2_generateCashflows_invalidWindow [] 3 5 ⟨[], 100, 5, 3⟩).2.1 (by norm_num),
   (C2_generateCashflows_invalidWindow [] 5 3 ⟨[], 100, 5, 3⟩).2.2.1
     ("cf_begin must be before or equal to cf_end") (by decide)⟩

/-- C3: `BalanceFromCashflows` always succeeds and returns `n + 1` rows:
first the synthetic row (dated `sim_start`, zero cashflow, empty items,
balance equal to the initial balance — even on an empty input), then the
input rows in order, where row `i` keeps its date, cashflow and items and
gets balance `initial + c1 + ... + ci`. -/
theorem C3_balanceFromCashflows_fold (b : ℚ) (s : Int) (l : List Cashflow) :
    (BalanceFromCashflows b s l).length = l.length + 1 ∧
    (BalanceFromCashflows b s l)[0]? = some ⟨s, 0, b, []⟩ ∧
    ∀ (i : Nat) (c : Cashflow), l[i]? = some c →
      (BalanceFromCashflows b s l)[i + 1]?
        = some { c with Balance := b + ((l.take (i + 1)).map Cashflow.Cashflow).sum } := by
  refine ⟨?_, by simp [BalanceFromCashflows], ?_⟩
  · simp [BalanceFromCashflows, accumulate_length]
  · intro i c hc
    have h := accumulate_getElem l b i c hc
    simpa [BalanceFromCashflows] using h

/-- Witness for C3 on a two-row ledger. -/
theorem C3_witness :
    (BalanceFromCashflows 100 7 [⟨8, 10, 0, []⟩, ⟨9, -4, 0, []⟩]).length = 3 ∧
    (BalanceFromCashflows 100 7 [⟨8, 10, 0, []⟩, ⟨9, -4, 0, []⟩])[0]? = some ⟨7, 0, 100, []⟩ ∧
    (BalanceFromCashflows 100 7 [⟨8, 10, 0, []⟩, ⟨9, -4, 0, []⟩])[2]?
      = some ⟨9, -4, 100 + (([⟨8, 10, 0, []⟩, ⟨9, (-4 : ℚ), 0, []⟩].take 2).map
          Cashflow.Cashflow).sum, []⟩ :=
  ⟨(C3_balanceFromCashflows_fold 100 7 [⟨8, 10, 0, []⟩, ⟨9, -4, 0, []⟩]).1,
   (C3_balanceFromCashflows_fold 100 7 [⟨8, 10, 0, []⟩, ⟨9, -4, 0, []⟩]).2.1,
   (C3_balanceFromCashflows_fold 100 7 [⟨8, 10, 0, []⟩, ⟨9, -4, 0, []⟩]).2.2 1
     ⟨9, -4, 0, []⟩ (by decide)⟩

/-- C4: advancing a date whose day-of-month does not exist in the target
month rolls over into the following month rather than clamping:
2025-01-31 plus one month is 2025-03-03 (Feb 31 normalised, non-leap
year), and the same normalisation drives the quarterly, semi-annual and
annual advancement functions (Jan 31 + 3 months = May 1; Mar 31 + 6
months = Oct 1; Feb 29 2024 + 1 year = Mar 1 2025). -/
theorem C4_getNextDate_rollover :
    GetNextDate (daysFromCivil 2025 1 31) Monthly = some (daysFromCivil 2025 3 3) ∧
    GetNextDate (daysFromCivil 2025 1 31) Quarterly = some (daysFromCivil 2025 5 1) ∧
    GetNextDate (daysFromCivil 2025 3 31) SemiAnnual = some (daysFromCivil 2025 10 1) ∧
    GetNextDate (daysFromCivil 2024 2 29) Annual = some (daysFromCivil 2025 3 1) := by
  refine ⟨by decide, by decide, by decide, by decide⟩

/-- C5: a daily event that starts no later than the window end, whose end
date is absent or not before the window start, and whose end date differs
from its start date, reports its first occurrence at `window_begin`,
regardless of where its start date falls. -/
theorem C5_getFirstDate_daily (event : Event) (cfBegin cfEnd : Int)
    (hf : event.Frequency = Daily)
    (hstart : ¬ cfEnd < event.StartDate)
    (hend : ∀ e, event.EndDate = some e → ¬ e < cfBegin)
    (hne : event.EndDate ≠ some event.StartDate) :
    GetFirstDate event cfBegin cfEnd = some cfBegin := by
  unfold GetFirstDate
  rw [if_neg hstart]
  have h2 : endsBefore event.EndDate cfBegin = false := by
    unfold endsBefore
    cases hE : event.EndDate with
    | none => rfl
    | some x => simpa using hend x hE
  rw [h2]
  simp only [Bool.false_eq_true, if_false]
  rw [if_neg, if_pos hf]
  rintro (h | h)
  · rw [hf] at h
    exact absurd h (by decide)
  · exact hne h

/-- Witness for C5: a daily event started well before the window. -/
theorem C5_witness :
    GetFirstDate ⟨"D", 10, none, "daily", 5⟩ 100 200 = some 100 :=
  C5_getFirstDate_daily ⟨"D", 10, none, "daily", 5⟩ 100 200 rfl (by norm_num)
    (fun e he => by cases he) (by decide)

/-- C9: each recognised advancement strictly increases the date (this is
the measure that bounds the first-occurrence search), and consequently the
search loop of `GetFirstDate` always terminates with a result for every
recognised frequency — `GetFirstDate` is a total function. -/
theorem C9_search_terminates (f : Frequency) (t t' b c : Int) :
    (GetNextDate t f = some t' → t < t') ∧
    (IsValidFrequency f = true → (GetFirstDateLoop f b c).isSome = true) :=
  ⟨getNextDate_lt t f t', fun hv => getFirstDateLoop_isSome f b hv c⟩

/-- Witness for C9: a monthly step from day 0 (0001-01-01). -/
theorem C9_witness :
    ((0 : Int) < 31) ∧ (GetFirstDateLoop Monthly 0 5).isSome = true :=
  ⟨(C9_search_terminates Monthly 0 31 0 5).1 (by decide),
   (C9_search_terminates Monthly 0 31 0 5).2 (by decide)⟩

/-- C6: an event with nonzero value whose end date is present and equals
its start date, with the start date inside the window, contributes exactly
once, dated at the start date, whatever recurrence tag it carries. -/
theorem C6_startEqEnd_fires_once (event : Event) (b e : Int)
    (hv : event.Value ≠ 0) (hend : event.EndDate = some event.StartDate)
    (h1 : b ≤ event.StartDate) (h2 : event.StartDate ≤ e) :
    GenerateCashflows [event] b e
      = Except.ok [⟨event.StartDate, event.Value, 0, [⟨event.Name, event.Value⟩]⟩] := by
  have hwin : ¬ e < b := by omega
  unfold GenerateCashflows
  rw [if_neg hwin]
  simp only [List.foldl_cons, List.foldl_nil]
  unfold processEvent
  rw [if_neg hv]
  have hfd : GetFirstDate event b e = some event.StartDate := by
    unfold GetFirstDate
    rw [if_neg (by omega)]
    have hEB : endsBefore event.EndDate b = false := by
      rw [hend]
      unfold endsBefore
      simp only [decide_eq_false_iff_not]
      omega
    rw [hEB]
    simp only [Bool.false_eq_true, if_false]
    rw [if_pos (Or.inr hend)]
  rw [hfd]
  dsimp only
  have hnotpast : ¬ e < event.StartDate := by omega
  have hEB2 : endsBefore event.EndDate event.StartDate = false := by
    rw [hend]
    unfold endsBefore
    simp
  have hexp : expandEvent event e event.StartDate []
      = [(event.StartDate, [⟨event.Name, event.Value⟩])] := by
    by_cases hfr : event.Frequency = ""
    · rw [expandEvent_once event e event.StartDate [] hnotpast hEB2 hfr]
      rfl
    · cases hx : GetNextDate event.StartDate event.Frequency with
      | none =>
        rw [expandEvent_adv_err event e event.StartDate [] hnotpast hEB2 hfr hx]
        rfl
      | some next =>
        rw [expandEvent_adv event e event.StartDate next [] hnotpast hEB2 hfr hx]
        have hlt := getNextDate_lt _ _ _ hx
        by_cases hp : e < next
        · rw [expandEvent_stop_past _ _ _ _ hp]
          rfl
        · rw [expandEvent_stop_ended _ _ _ _ hp]
          · rfl
          · rw [hend]
            unfold endsBefore
            simp only [decide_eq_true_eq]
            omega
  rw [hexp]
  simp only [List.map_cons, List.map_nil]
  unfold sortCashflowsByDate
  simp only [List.foldr_cons, List.foldr_nil, insertByDate]
  unfold itemsTotal
  simp only [List.foldl_cons, List.foldl_nil, Except.ok.injEq, List.cons.injEq, and_true,
    Cashflow.mk.injEq, zero_add, true_and, and_self]

/-- Witness for C6: a monthly event whose end date equals its start date,
inside the window. -/
theorem C6_witness :
    GenerateCashflows [⟨"A", 50, some 50, "monthly", 3⟩] 40 300
      = Except.ok [⟨50, 3, 0, [⟨"A", 3⟩]⟩] :=
  C6_startEqEnd_fires_once ⟨"A", 50, some 50, "monthly", 3⟩ 40 300 (by norm_num) rfl
    (by norm_num) (by norm_num)

/-- Every successful generation is strictly increasing in date: the
aggregation keys are pairwise distinct and the output is sorted. -/
theorem generateCashflows_pairwise_lt (events : List Event) (b e : Int) (l : List Cashflow)
    (h : GenerateCashflows events b e = Except.ok l) :
    l.Pairwise (fun a c => a.Date < c.Date) := by
  obtain ⟨hw, hl⟩ := generateCashflows_ok events b e l h
  subst hl
  apply sorted_nodup_strict _ (sortCashflowsByDate_sorted _)
  have hperm := (sortCashflowsByDate_perm
    ((events.foldl (processEvent b e) []).map
      (fun p => { Date := p.1, Cashflow := itemsTotal p.2, Balance := 0, Items := p.2 }))).map
    Cashflow.Date
  rw [hperm.nodup_iff]
  have hcomp : (((events.foldl (processEvent b e) []).map
      (fun p => ({ Date := p.1, Cashflow := itemsTotal p.2, Balance := 0, Items := p.2 } : Cashflow))).map
        Cashflow.Date)
      = (events.foldl (processEvent b e) []).map Prod.fst := by
    rw [List.map_map]
    rfl
  rw [hcomp]
  exact foldl_processEvent_inv b e (fun m => (m.map Prod.fst).Nodup) events
    (fun ev hev first m hm hf hv => expandEvent_nodup ev e first m hm) [] (by simp)

/-- Every successful generation only contains rows dated at most the
window end. -/
theorem generateCashflows_dates_le (events : List Event) (b e : Int) (l : List Cashflow)
    (h : GenerateCashflows events b e = Except.ok l) :
    ∀ cf ∈ l, cf.Date ≤ e := by
  obtain ⟨hw, hl⟩ := generateCashflows_ok events b e l h
  subst hl
  intro cf hcf
  have hcf2 := (sortCashflowsByDate_perm _).mem_iff.mp hcf
  rcases List.mem_map.mp hcf2 with ⟨p, hp, hpe⟩
  subst hpe
  exact foldl_processEvent_inv b e (fun m => ∀ q ∈ m, q.1 ≤ e) events
    (fun ev hev first m hm hf hv => expandEvent_mem_le ev e first m hm) [] (by simp) p hp

/-- When every event starts no earlier than `L` and the window starts no
earlier than `L`, every generated row is dated at least `L`. -/
theorem generateCashflows_dates_ge (events : List Event) (b e L : Int) (l : List Cashflow)
    (h : GenerateCashflows events b e = Except.ok l) (hb : L ≤ b)
    (hev : ∀ ev ∈ events, L ≤ ev.StartDate) :
    ∀ cf ∈ l, L ≤ cf.Date := by
  obtain ⟨hw, hl⟩ := generateCashflows_ok events b e l h
  subst hl
  intro cf hcf
  have hcf2 := (sortCashflowsByDate_perm _).mem_iff.mp hcf
  rcases List.mem_map.mp hcf2 with ⟨p, hp, hpe⟩
  subst hpe
  refine foldl_processEvent_inv b e (fun m => ∀ q ∈ m, L ≤ q.1) events ?_ [] (by simp) p hp
  intro ev hevm first m hm hf hv
  exact expandEvent_mem_ge ev e L first m
    (getFirstDate_ge ev b e first L hf hb (hev ev hevm)) hm

/-- Concrete evaluation: a one-time event (no frequency, no end date)
dated `10`, expanded over the window `[20, 30]`, produces a row dated `10`
— before the window begins. -/
theorem oneTimeEarly_gen_eval :
    GenerateCashflows [⟨"A", 10, none, "", 100⟩] 20 30
      = Except.ok [⟨10, 100, 0, [⟨"A", 100⟩]⟩] := by
  have h1 : GetFirstDate ⟨"A", 10, none, "", 100⟩ 20 30 = some 10 := by decide
  simp only [GenerateCashflows, processEvent, List.foldl, h1]
  norm_num
  simp [expandEvent, endsBefore, appendToMap, itemsTotal, sortCashflowsByDate, insertByDate]

/-- C7: on any successful generation, every row's cashflow is the sum of
its items' values, and no item carries value zero, because zero-value
events are skipped before expansion. -/
theorem C7_cashflow_sums_items (events : List Event) (b e : Int) (l : List Cashflow)
    (h : GenerateCashflows events b e = Except.ok l) :
    ∀ cf ∈ l, cf.Cashflow = (cf.Items.map CashflowItem.Value).sum ∧
      ∀ it ∈ cf.Items, it.Value ≠ 0 := by
  obtain ⟨hw, hl⟩ := generateCashflows_ok events b e l h
  subst hl
  intro cf hcf
  have hcf2 := (sortCashflowsByDate_perm _).mem_iff.mp hcf
  rcases List.mem_map.mp hcf2 with ⟨p, hp, hpe⟩
  subst hpe
  constructor
  · exact itemsTotal_eq p.2
  · intro it hit
    have hinv := foldl_processEvent_inv b e
      (fun m => ∀ q ∈ m, ∀ it2 ∈ q.2, it2.Value ≠ 0) events
      (fun ev hev first m hm hf hv =>
        expandEvent_mem_item ev e (fun it2 => it2.Value ≠ 0) hv first m hm)
      [] (by simp)
    exact hinv p hp it hit

/-- Witness for C7 on a concrete one-row generation. -/
theorem C7_witness :
    (100 : ℚ) = ([(⟨"A", 100⟩ : CashflowItem)].map CashflowItem.Value).sum ∧
    (100 : ℚ) ≠ 0 :=
  ⟨(C7_cashflow_sums_items [⟨"A", 10, none, "", 100⟩] 20 30 [⟨10, 100, 0, [⟨"A", 100⟩]⟩]
      oneTimeEarly_gen_eval ⟨10, 100, 0, [⟨"A", 100⟩]⟩ (by decide)).1,
   (C7_cashflow_sums_items [⟨"A", 10, none, "", 100⟩] 20 30 [⟨10, 100, 0, [⟨"A", 100⟩]⟩]
      oneTimeEarly_gen_eval ⟨10, 100, 0, [⟨"A", 100⟩]⟩ (by decide)).2 ⟨"A", 100⟩ (by decide)⟩

/-- C8: on any successful generation the rows are strictly increasing in
date — aggregation keys contributions by exact date, so each date appears
at most once, and the result is sorted ascending. -/
theorem C8_strictly_increasing_dates (events : List Event) (b e : Int) (l : List Cashflow)
    (h : GenerateCashflows events b e = Except.ok l) :
    l.Pairwise (fun a c => a.Date < c.Date) :=
  generateCashflows_pairwise_lt events b e l h

/-- Witness for C8 on an empty event list. -/
theorem C8_witness : List.Pairwise (fun a c => a.Date < c.Date) ([] : List Cashflow) :=
  C8_strictly_increasing_dates [] 3 5 [] (by decide)

/-- C1 as stated is false: `GenerateCashflows` can return an entry dated
strictly before `window_begin` (and it is not the orchestrator's synthetic
entry): a one-time event whose start date precedes the window fires on its
start date and the expansion loop never clips against the window start. -/
theorem C1_counterexample :
    GenerateCashflows [⟨"A", 10, none, "", 100⟩] 20 30
      = Except.ok [⟨10, 100, 0, [⟨"A", 100⟩]⟩] ∧ (10 : Int) < 20 :=
  ⟨oneTimeEarly_gen_eval, by norm_num⟩

/-- C1 (amended): for every valid window and event list, every entry
returned by `GenerateCashflows` is dated at most `window_end` (entries
dated before `window_begin` are possible, but only for one-time events
whose start date precedes the window); and the orchestrator's synthetic
initial entry is always dated exactly `sim_start`, with zero cashflow, the
initial balance, and no items. -/
theorem C1_amended_window_bound (events : List Event) (b e : Int) (l : List Cashflow)
    (req : SimulationRequest) (resp : SimulationResponse) :
    (GenerateCashflows events b e = Except.ok l → ∀ cf ∈ l, cf.Date ≤ e) ∧
    (RunSimulation req = Except.ok resp →
      resp.Cashflows[0]? = some ⟨req.SimStart, 0, req.InitialBalance, []⟩) := by
  constructor
  · intro h
    exact generateCashflows_dates_le events b e l h
  · intro h
    unfold RunSimulation at h
    cases hg : GenerateCashflows req.Events req.SimStart req.SimEnd with
    | error msg =>
      rw [hg] at h
      exact Except.noConfusion h
    | ok gen =>
      rw [hg] at h
      injection h with h
      rw [← h]
      simp [BalanceFromCashflows]

/-- Witness for the amended C1 at a concrete empty run. -/
theorem C1_witness :
    (∀ cf ∈ ([] : List Cashflow), cf.Date ≤ (5 : Int)) ∧
    (SimulationResponse.mk [⟨3, 0, 7, []⟩]).Cashflows[0]? = some ⟨3, 0, 7, []⟩ :=
  ⟨(C1_amended_window_bound [] 3 5 [] ⟨[], 7, 3, 5⟩ ⟨[⟨3, 0, 7, []⟩]⟩).1 (by decide),
   (C1_amended_window_bound [] 3 5 [] ⟨[], 7, 3, 5⟩ ⟨[⟨3, 0, 7, []⟩]⟩).2 (by decide)⟩

/-- C10's blanket "non-decreasing" is false: with a one-time event dated
before `sim_start`, the ledger starts at `sim_start` and then steps
backwards to the event's date. -/
theorem C10_counterexample :
    RunSimulation ⟨[⟨"A", 10, none, "", 100⟩], 0, 20, 30⟩
      = Except.ok ⟨[⟨20, 0, 0, []⟩, ⟨10, 100, 100, [⟨"A", 100⟩]⟩]⟩ ∧
    ¬ List.Pairwise (fun a c => a.Date ≤ c.Date)
        ([⟨20, 0, 0, []⟩, ⟨10, 100, 100, [⟨"A", 100⟩]⟩] : List Cashflow) := by
  constructor
  · unfold RunSimulation
    dsimp only
    rw [oneTimeEarly_gen_eval]
    dsimp only
    simp [BalanceFromCashflows, accumulate]
  · decide

/-- C10 (amended): provided every event starts no earlier than
`sim_start` (so that no ledger row can precede the synthetic entry), the
ledger dates are non-decreasing but not always strictly increasing:
whenever the generator emits a row dated exactly `sim_start`, the first
two ledger rows both carry `sim_start`; and when no generated row is dated
`sim_start`, the whole ledger is strictly increasing in date. -/
theorem C10_amended_ledger_order (req : SimulationRequest) (resp : SimulationResponse)
    (gen : List Cashflow)
    (h : RunSimulation req = Except.ok resp)
    (hgen : GenerateCashflows req.Events req.SimStart req.SimEnd = Except.ok gen)
    (hstart : ∀ ev ∈ req.Events, req.SimStart ≤ ev.StartDate) :
    resp.Cashflows.Pairwise (fun a c => a.Date ≤ c.Date) ∧
    ((∃ cf ∈ gen, cf.Date = req.SimStart) →
      (resp.Cashflows.map Cashflow.Date).take 2 = [req.SimStart, req.SimStart]) ∧
    ((∀ cf ∈ gen, cf.Date ≠ req.SimStart) →
      resp.Cashflows.Pairwise (fun a c => a.Date < c.Date)) := by
  unfold RunSimulation at h
  rw [hgen] at h
  injection h with h
  subst h
  dsimp only
  have hlt : gen.Pairwise (fun a c => a.Date < c.Date) :=
    generateCashflows_pairwise_lt _ _ _ _ hgen
  have hge : ∀ cf ∈ gen, req.SimStart ≤ cf.Date :=
    generateCashflows_dates_ge _ _ _ req.SimStart _ hgen le_rfl hstart
  have hdates : (accumulate req.InitialBalance gen).map Cashflow.Date
      = gen.map Cashflow.Date := accumulate_map_date _ _
  have hmem : ∀ x ∈ accumulate req.InitialBalance gen, ∃ g ∈ gen, g.Date = x.Date := by
    intro x hx
    have hx2 : x.Date ∈ (accumulate req.InitialBalance gen).map Cashflow.Date :=
      List.mem_map_of_mem Cashflow.Date hx
    rw [hdates] at hx2
    rcases List.mem_map.mp hx2 with ⟨g, hg, hgd⟩
    exact ⟨g, hg, hgd⟩
  have hacc_lt : (accumulate req.InitialBalance gen).Pairwise
      (fun a c => a.Date < c.Date) := by
    have h1 : (gen.map Cashflow.Date).Pairwise (fun a c => a < c) :=
      List.pairwise_map.mpr hlt
    rw [← hdates] at h1
    exact List.pairwise_map.mp h1
  refine ⟨?_, ?_, ?_⟩
  · unfold BalanceFromCashflows
    refine List.pairwise_cons.mpr ⟨?_, hacc_lt.imp le_of_lt⟩
    intro x hx
    rcases hmem x hx with ⟨g, hg, hgd⟩
    have := hge g hg
    simp only []
    omega
  · rintro ⟨cf, hcf, hdate⟩
    cases gen with
    | nil => cases hcf
    | cons g0 grest =>
      have hg0 : g0.Date = req.SimStart := by
        rcases List.mem_cons.mp hcf with hh | hh
        · rw [← hh, hdate]
        · have h1 := (List.pairwise_cons.mp hlt).1 cf hh
          have h2 := hge g0 (List.mem_cons_self _ _)
          omega
      unfold BalanceFromCashflows accumulate
      simp [hg0]
  · intro hne
    unfold BalanceFromCashflows
    refine List.pairwise_cons.mpr ⟨?_, hacc_lt⟩
    intro x hx
    rcases hmem x hx with ⟨g, hg, hgd⟩
    have h1 := hge g hg
    have h2 := hne g hg
    simp only []
    omega

/-- Witness for the amended C10 at a concrete empty run. -/
theorem C10_witness :
    ([(⟨5, 0, 2, []⟩ : Cashflow)].Pairwise (fun a c => a.Date ≤ c.Date)) ∧
    ([(⟨5, 0, 2, []⟩ : Cashflow)].Pairwise (fun a c => a.Date < c.Date)) := by
  have h := C10_amended_ledger_order ⟨[], 2, 5, 9⟩ ⟨[⟨5, 0, 2, []⟩]⟩ [] (by decide)
    (by decide) (by simp)
  exact ⟨h.1, h.2.2 (by simp)⟩
